import Mathlib

/-!
Verification development for the embedded-SQL scanner (find_embedded_sql.py).

The program's components are shallowly embedded as executable Lean functions:
file contents are lists of byte values (Nat), decoded text is a list of Char,
dataframes are lists of rows, the on-disk result store is an Option (absent or
present with its rows).  Each definition mirrors the corresponding Python
function line by line; pandas and filesystem effects are made explicit.
-/

namespace FindEmbeddedSql

/-- Batch size constant from the source (NUM_FILES_IN_BATCH = 100). -/
def NUM_FILES_IN_BATCH : Nat := 100

/-- Loop body of yield_file_batches: accumulate files, emit a batch once the
accumulator reaches the batch size, and emit the leftover batch at the end
(mirrors the for-loop plus the trailing if files: yield files). -/
def batchLoop (B : Nat) (acc : List α) : List α → List (List α)
  | [] => if acc.isEmpty then [] else [acc]
  | f :: fs =>
    if B ≤ (acc ++ [f]).length then (acc ++ [f]) :: batchLoop B [] fs
    else batchLoop B (acc ++ [f]) fs

/-- Embedding of yield_file_batches: group the incoming file sequence into
batches of size B (the source fixes B = NUM_FILES_IN_BATCH). -/
def yield_file_batches (B : Nat) (files : List α) : List (List α) :=
  batchLoop B [] files

/-- Reference chunking function: repeatedly take B elements.  Used as a proof
vehicle to reason about yield_file_batches. -/
def chunkList : Nat → List α → List (List α)
  | _, [] => []
  | 0, _ :: _ => []
  | B + 1, x :: xs => (x :: xs).take (B + 1) :: chunkList (B + 1) ((x :: xs).drop (B + 1))
termination_by _ l => l.length
decreasing_by
  simp only [List.length_drop, List.length_cons]
  omega

/-- Row of the results table: a (Filepath, Sql) pair.  Text is represented as
a list of characters throughout the development. -/
abbrev Row : Type := List Char × List Char

/-- Embedding of save_results: merging one batch artifact into the on-disk
result store.  The store is None when the results file is absent.  An artifact
of none models the file_path.exists() false branch (a message is printed and
the store is unchanged); an existing artifact is concatenated after the
current store contents, or becomes the store when the store is absent. -/
def save_results (artifact : Option (List Row)) (store : Option (List Row)) :
    Option (List Row) :=
  match artifact with
  | none => store
  | some rows =>
    match store with
    | none => some rows
    | some s => some (s ++ rows)

/-- Sequential merge of a list of existing batch artifacts into the store,
one save_results call per artifact, in list order. -/
def mergeAll (arts : List (List Row)) (store : Option (List Row)) :
    Option (List Row) :=
  arts.foldl (fun st a => save_results (some a) st) store

/-- Row count of the result store; an absent store has zero rows. -/
def storeCount : Option (List Row) → Nat
  | none => 0
  | some s => s.length

/-- Newline character; the regex dot of the pattern does not match it. -/
def nlChar : Char := Char.ofNat 10

/-- Semicolon character, the literal terminator of the pattern. -/
def semiChar : Char := Char.ofNat 59

/-- Literal prefix SELECT-space of the pattern, as written in the source. -/
def selLit : List Char := "SELECT ".toList

/-- Literal FROM of the pattern. -/
def fromLit : List Char := "FROM".toList

/-- Lowercase hexadecimal digit, as used by the CPython bytes repr. -/
def hexDigitChar (n : Nat) : Char :=
  if n < 10 then Char.ofNat (48 + n) else Char.ofNat (87 + n)

/-- How the CPython bytes repr renders one byte, given the code of the chosen
quote character: backslash and the quote are backslash-escaped, tab, newline
and carriage return become two-character escapes, other non-printable bytes
become a four-character hexadecimal escape, printable bytes stay themselves. -/
def pyByteEscape (q : Nat) (b : Nat) : List Char :=
  if b = 92 then [Char.ofNat 92, Char.ofNat 92]
  else if b = q then [Char.ofNat 92, Char.ofNat q]
  else if b = 9 then [Char.ofNat 92, Char.ofNat 116]
  else if b = 10 then [Char.ofNat 92, Char.ofNat 110]
  else if b = 13 then [Char.ofNat 92, Char.ofNat 114]
  else if b < 32 ∨ 126 < b then
    [Char.ofNat 92, Char.ofNat 120, hexDigitChar (b / 16), hexDigitChar (b % 16)]
  else [Char.ofNat b]

/-- The string the source actually matches against before uppercasing: the
Python text of the bytes object, str(open(file).read()), which is the repr
of the bytes value: a lowercase b, a quote, the escaped bytes, a quote.  The
quote is a double quote exactly when the buffer holds a single-quote byte and
no double-quote byte, matching CPython. -/
def pyReprBytes (bs : List Nat) : List Char :=
  [Char.ofNat 98, Char.ofNat (if 39 ∈ bs ∧ ¬ 34 ∈ bs then 34 else 39)] ++
    (bs.map (pyByteEscape (if 39 ∈ bs ∧ ¬ 34 ∈ bs then 34 else 39))).flatten ++
    [Char.ofNat (if 39 ∈ bs ∧ ¬ 34 ∈ bs then 34 else 39)]

/-- Uppercasing, as .upper() does on the ASCII-only repr text. -/
def pyUpper (cs : List Char) : List Char := cs.map Char.toUpper

/-- Lazy tail of the pattern: dot-star-lazy then a semicolon.  Returns the
number of characters consumed by the shortest viable expansion, none when no
expansion matches (a newline stops the dot). -/
def dotStarSemi : List Char → Option Nat
  | [] => none
  | c :: rest =>
    if c = semiChar then some 1
    else if c = nlChar then none
    else (dotStarSemi rest).map (· + 1)

/-- Pattern tail dot-plus-lazy then a semicolon: one mandatory dot character
then the dot-star tail. -/
def dotPlusSemi : List Char → Option Nat
  | [] => none
  | c :: rest => if c = nlChar then none else (dotStarSemi rest).map (· + 1)

/-- Pattern tail dot-star-lazy, FROM, dot-plus-lazy, semicolon, with the
backtracking order of the regex engine: the earliest FROM whose own tail
matches wins; otherwise the lazy dot consumes one more character. -/
def dotStarFromSemi : List Char → Option Nat
  | [] => none
  | c :: rest =>
    match (if fromLit.isPrefixOf (c :: rest) then dotPlusSemi ((c :: rest).drop 4)
           else none) with
    | some m => some (4 + m)
    | none => if c = nlChar then none else (dotStarFromSemi rest).map (· + 1)

/-- Pattern tail dot-plus-lazy, FROM, dot-plus-lazy, semicolon. -/
def dotPlusFromSemi : List Char → Option Nat
  | [] => none
  | c :: rest => if c = nlChar then none else (dotStarFromSemi rest).map (· + 1)

/-- Length of the match of the whole pattern SELECT-space dot-plus-lazy FROM
dot-plus-lazy semicolon anchored at the head of the list, none when the
pattern does not match here. -/
def matchSelect (l : List Char) : Option Nat :=
  if selLit.isPrefixOf l then (dotPlusFromSemi (l.drop 7)).map (· + 7) else none

/-- Scanning loop of re.finditer: at each position try the anchored pattern;
on a match, emit it and resume after its end (matches never overlap),
otherwise advance one character.  Fuel is the remaining list length, which
suffices because every step consumes at least one character. -/
def finditerAux : Nat → List Char → List (List Char)
  | 0, _ => []
  | _ + 1, [] => []
  | fuel + 1, c :: rest =>
    match matchSelect (c :: rest) with
    | some n => (c :: rest).take n :: finditerAux fuel ((c :: rest).drop n)
    | none => finditerAux fuel rest

/-- All matches of the fixed pattern in scanning order. -/
def pyFinditer (l : List Char) : List (List Char) := finditerAux l.length l

/-- The Extractor: the matching part of process_file.  The file bytes are
turned into the Python text of the bytes object, uppercased, and scanned with
the fixed pattern; this is total, so no byte buffer can make it raise. -/
def extractMatches (bs : List Nat) : List (List Char) :=
  pyFinditer (pyUpper (pyReprBytes bs))

/-- Byte values of an ASCII string, for concrete inputs. -/
def strBytes (s : String) : List Nat := s.toList.map Char.toNat

/-- Modelled from the spec: the spec states that matching is performed over
the uppercased byte-decoded content, undecodable bytes falling back to a
lossy placeholder decode.  This decoder maps every ASCII byte to its
character and every non-ASCII byte to the Unicode replacement character; on
plain-ASCII input every byte decode agrees with it. -/
def specDecodeLossy (bs : List Nat) : List Char :=
  bs.map (fun b => if b < 128 then Char.ofNat b else Char.ofNat 0xFFFD)

/-- Matches of the fixed pattern over the uppercased byte-decoded content,
following the spec wording; the comparison target for the Extractor. -/
def specExtractMatches (bs : List Nat) : List (List Char) :=
  pyFinditer (pyUpper (specDecodeLossy bs))

/-- One file handed to the batch processor: its path and the outcome of
reading its bytes (reading can raise, carried as an error text). -/
structure FileInput where
  path : List Char
  content : Except (List Char) (List Nat)

/-- Embedding of FileProcessor.process_file: read the bytes and build one row
per match.  Fails exactly when reading the file fails. -/
def process_file (f : FileInput) : Except (List Char) (List Row) :=
  f.content.map (fun bs => (extractMatches bs).map (fun m => ((f.path, m) : Row)))

/-- Embedding of FileProcessor.yield_processing_results: per file, either the
result table or the caught exception text, never a raise. -/
def yield_processing_results (files : List FileInput) :
    List (Option (List Row) × Option (List Char)) :=
  files.map fun f =>
    match process_file f with
    | Except.ok t => (some t, none)
    | Except.error e => (none, some e)

/-- Embedding of FileProcessor.add_result_to_container: the new result rows
are concatenated before the container rows (pd.concat in that order). -/
def add_result_to_container (process_result result_container : List Row) : List Row :=
  process_result ++ result_container

/-- Accumulation loop of process_files over the per-file outcomes, with an
explicit starting container. -/
def batchFoldAux (files : List FileInput) (acc : List Row) : List Row :=
  (yield_processing_results files).foldl
    (fun acc pr =>
      match pr.1 with
      | some t => if t.isEmpty then acc else add_result_to_container t acc
      | none => acc) acc

/-- The batch-level table built by the loop in process_files: non-empty
per-file results are folded into the container, failed or empty results are
logged and skipped. -/
def batchContainer (files : List FileInput) : List Row :=
  batchFoldAux files []

/-- Per-file tables of the files whose read succeeded, in batch order. -/
def successTables (files : List FileInput) : List (List Row) :=
  files.filterMap (fun f => (process_file f).toOption)

/-- The temp-directory environment of one process_files call: whether
persisting the batch table succeeds, and the exception text when it does
not (generate_temp_file_path plus write_results collapsed to one effect). -/
structure TmpDir where
  writeOk : Bool
  errMsg : List Char

/-- Embedding of FileProcessor.process_files: build the batch table; when it
is empty return (none, none); otherwise persist it and return the artifact
(identified with its rows) and no error, or, when persisting raises, no
artifact and the caught error text.  Total: every call returns a pair. -/
def process_files (tmp : TmpDir) (files : List FileInput) :
    Option (List Row) × Option (List Char) :=
  if (batchContainer files).isEmpty then (none, none)
  else if tmp.writeOk then (some (batchContainer files), none)
  else (none, some tmp.errMsg)

/-- Split a character list at slash characters (path separator of the POSIX
paths the scanner walks). -/
def splitSlash : List Char → List (List Char)
  | [] => [[]]
  | c :: rest =>
    if c = Char.ofNat 47 then [] :: splitSlash rest
    else ((c :: (splitSlash rest).headD []) :: (splitSlash rest).tail)

/-- Embedding of Path(val).name: the last non-empty path component. -/
def pathName (cs : List Char) : List Char :=
  ((splitSlash cs).filter (fun g => !g.isEmpty)).getLastD []

/-- First-occurrence deduplication with an explicit seen set; the embedding
of the distinct values of a dataframe column (unique, groupby keys). -/
def dedupFirstAux (seen : List (List Char)) : List (List Char) → List (List Char)
  | [] => []
  | x :: xs =>
    if x ∈ seen then dedupFirstAux seen xs
    else x :: dedupFirstAux (x :: seen) xs

/-- Distinct values of a character-list column, first occurrences kept. -/
def dedupFirst (l : List (List Char)) : List (List Char) := dedupFirstAux [] l

/-- Embedding of df.groupby(Filename).size(): one (basename, count) entry per
distinct basename of the Filepath column.  The groupby key order and the
unstable quicksort tie order of the source are unspecified observable
details; first-occurrence order stands in for them. -/
def filenameCounts (rows : List Row) : List (List Char × Nat) :=
  (dedupFirst (rows.map (fun r => pathName r.1))).map
    (fun k => (k, (rows.map (fun r => pathName r.1)).count k))

/-- Embedding of df.groupby(Filepath).size(): one (filepath, count) entry per
distinct filepath, the table whose statistics the report prints. -/
def filepathCounts (rows : List Row) : List (List Char × Nat) :=
  (dedupFirst (rows.map Prod.fst)).map
    (fun k => (k, (rows.map Prod.fst).count k))

/-- Descending-count order used by sort_values(Count, ascending=False). -/
def countGE (a b : List Char × Nat) : Prop := b.2 ≤ a.2

instance : DecidableRel countGE := fun a b => Nat.decLe b.2 a.2

instance : IsTotal (List Char × Nat) countGE := ⟨fun a b => Nat.le_total b.2 a.2⟩

instance : IsTrans (List Char × Nat) countGE :=
  ⟨fun _ _ _ hab hbc => Nat.le_trans hbc hab⟩

/-- The top list of the report: the filename frequency table sorted by
descending count, truncated to its first ten entries (head(10) when the
table has at least ten entries, the whole table otherwise -- which is take
ten in both cases). -/
def topList (rows : List Row) : List (List Char × Nat) :=
  (List.insertionSort countGE (filenameCounts rows)).take 10

/-- What provide_output prints: either the no-matches message or the summary
report with the total match count, the distinct file count, the top list and
the per-file count table that the printed statistics describe (the float
statistics themselves are outside the embedding). -/
inductive ReportOutput
  | noMatches
  | summary (total : Nat) (distinctFiles : Nat) (top : List (List Char × Nat))
      (perFileCounts : List (List Char × Nat))
deriving DecidableEq

/-- Embedding of provide_output: purely a read of the store.  The source
tests only RESULTS_DF.exists(), so an existing store -- even one with zero
rows -- takes the summary branch. -/
def provide_output (store : Option (List Row)) : ReportOutput :=
  match store with
  | none => ReportOutput.noMatches
  | some rows =>
    ReportOutput.summary rows.length (dedupFirst (rows.map Prod.fst)).length
      (topList rows) (filepathCounts rows)

/-- Fifteen distinct file paths, two of which share the basename f; each
contributes one match row. -/
def rows15collide : List Row :=
  ["d1/f", "d2/f", "p03", "p04", "p05", "p06", "p07", "p08", "p09", "p10",
   "p11", "p12", "p13", "p14", "p15"].map (fun p => (p.toList, "S".toList))

/-- Fifteen distinct file paths with pairwise distinct basenames, one match
row each. -/
def rows15distinct : List Row :=
  ["q01", "q02", "q03", "q04", "q05", "q06", "q07", "q08", "q09", "q10",
   "q11", "q12", "q13", "q14", "q15"].map (fun p => (p.toList, "S".toList))

/-- One directory entry seen by the enumerator: its path components and
whether it is a directory. -/
structure FsEntry where
  parts : List (List Char)
  isDir : Bool
deriving DecidableEq

/-- Name of an entry: its final path component. -/
def entryName (e : FsEntry) : List Char := e.parts.getLastD []

/-- Index of the last dot in a name, tracked while scanning left to right. -/
def lastDotIdxAux : List Char → Nat → Option Nat → Option Nat
  | [], _, acc => acc
  | c :: rest, i, acc =>
    lastDotIdxAux rest (i + 1) (if c = Char.ofNat 46 then some i else acc)

/-- Index of the last dot in a name, if any. -/
def lastDotIdx (cs : List Char) : Option Nat := lastDotIdxAux cs 0 none

/-- Embedding of Path.suffix: the substring from the last dot on, provided
the dot is neither the leading character (dotfile) nor the final one. -/
def pySuffix (cs : List Char) : List Char :=
  match lastDotIdx cs with
  | none => []
  | some i => if 0 < i ∧ i + 1 < cs.length then cs.drop i else []

/-- Extension of an entry, as Path.suffix computes it. -/
def entrySuffix (e : FsEntry) : List Char := pySuffix (entryName e)

/-- Embedding of REASONS_TO_SKIP_FILE: directories and anything under a .git
component are skipped. -/
def reasonsToSkip (e : FsEntry) : Bool :=
  e.isDir || e.parts.contains ".git".toList

/-- Embedding of yield_files: keep an entry unless a skip predicate fires or
an extension filter is configured and the entry's suffix is not in it (string
comparison, hence case-sensitive). -/
def yield_files (targetExts : Option (List (List Char))) (entries : List FsEntry) :
    List FsEntry :=
  entries.filter (fun e =>
    !(reasonsToSkip e ||
      (match targetExts with
       | some exts => !(exts.contains (entrySuffix e))
       | none => false)))

/-- Result-store states reachable through the pipeline's public operations:
the run starts by deleting the store, and afterwards the collector merges,
via save_results, exactly the artifacts that process_files returns; batches
that return no artifact leave the store as it was. -/
inductive ReachableStore : Option (List Row) → Prop
  | init : ReachableStore none
  | merge (s : Option (List Row)) (tmp : TmpDir) (files : List FileInput)
      (t : List Row) (hs : ReachableStore s)
      (h : (process_files tmp files).1 = some t) :
      ReachableStore (save_results (some t) s)

end FindEmbeddedSql

namespace FindEmbeddedSql

theorem chunkList_nil {α : Type} (B : Nat) : chunkList B ([] : List α) = [] := by
  cases B <;> simp [chunkList]

theorem chunkList_cons {α : Type} (B : Nat) (l : List α) (hl : l ≠ []) (hB : 0 < B) :
    chunkList B l = l.take B :: chunkList B (l.drop B) := by
  match B, l with
  | B + 1, x :: xs => simp [chunkList]

theorem batchLoop_eq_chunkList {α : Type} (B : Nat) (hB : 0 < B) :
    ∀ (rest acc : List α), acc.length < B →
      batchLoop B acc rest = chunkList B (acc ++ rest) := by
  intro rest
  induction rest with
  | nil =>
    intro acc hacc
    by_cases h : acc = []
    · simp [batchLoop, h, chunkList_nil]
    · rw [batchLoop]
      simp only [List.isEmpty_iff, h, if_false, List.append_nil]
      rw [chunkList_cons B acc h hB]
      rw [List.take_of_length_le (Nat.le_of_lt hacc),
          List.drop_of_length_le (Nat.le_of_lt hacc), chunkList_nil]
  | cons f fs ih =>
    intro acc hacc
    rw [batchLoop]
    by_cases h : B ≤ (acc ++ [f]).length
    · have hlen : (acc ++ [f]).length = B := by
        simp only [List.length_append, List.length_cons, List.length_nil] at h ⊢
        omega
      rw [if_pos h, ih [] hB]
      have hne : acc ++ f :: fs ≠ [] := by simp
      rw [chunkList_cons B _ hne hB]
      have hsplit : acc ++ f :: fs = (acc ++ [f]) ++ fs := by simp
      rw [hsplit, List.take_append_of_le_length (Nat.le_of_eq hlen.symm),
          List.drop_append_of_le_length (Nat.le_of_eq hlen.symm)]
      rw [List.take_of_length_le (Nat.le_of_eq hlen),
          List.drop_of_length_le (Nat.le_of_eq hlen), List.nil_append]
    · have hlt : (acc ++ [f]).length < B := Nat.lt_of_not_le h
      rw [if_neg h, ih (acc ++ [f]) hlt]
      simp

theorem yield_file_batches_eq_chunkList {α : Type} (B : Nat) (hB : 0 < B) (files : List α) :
    yield_file_batches B files = chunkList B files := by
  have h := batchLoop_eq_chunkList B hB files ([] : List α) (by simpa using hB)
  simpa [yield_file_batches] using h

theorem chunkList_flatten {α : Type} : ∀ (B : Nat) (l : List α), 0 < B →
    (chunkList B l).flatten = l := by
  intro B l
  induction B, l using chunkList.induct with
  | case1 B => intro _; simp [chunkList_nil]
  | case2 x xs => intro h; omega
  | case3 B x xs ih =>
    intro _
    rw [chunkList_cons _ _ (by simp) (Nat.succ_pos B)]
    simp only [List.flatten_cons, ih (Nat.succ_pos B)]
    exact List.take_append_drop _ _

theorem chunkList_length {α : Type} : ∀ (B : Nat) (l : List α), 0 < B →
    (chunkList B l).length = (l.length + B - 1) / B := by
  intro B l
  induction B, l using chunkList.induct with
  | case1 B =>
    intro hB
    simp only [chunkList_nil, List.length_nil, List.length, Nat.zero_add]
    rw [Nat.div_eq_of_lt (by omega)]
  | case2 x xs => intro h; omega
  | case3 B x xs ih =>
    intro _
    rw [chunkList_cons _ _ (by simp) (Nat.succ_pos B)]
    simp only [Nat.succ_eq_add_one, List.length_cons, ih (Nat.succ_pos B), List.length_drop]
    by_cases h : xs.length + 1 ≤ B + 1
    · have h1 : xs.length + 1 - (B + 1) = 0 := by omega
      rw [h1]
      have h2 : (0 + (B + 1) - 1) / (B + 1) = 0 := Nat.div_eq_of_lt (by omega)
      have h3 : (xs.length + 1 + (B + 1) - 1) / (B + 1) = 1 := by
        rw [Nat.div_eq_sub_div (by omega) (by omega)]
        rw [Nat.div_eq_of_lt (by omega)]
      omega
    · have h4 : xs.length + 1 + (B + 1) - 1 = (xs.length + 1 - (B + 1) + (B + 1) - 1) + (B + 1) := by
        omega
      rw [h4, Nat.add_div_right _ (Nat.succ_pos B)]

theorem chunkList_ne_nil {α : Type} (B : Nat) (l : List α) (hl : l ≠ []) (hB : 0 < B) :
    chunkList B l ≠ [] := by
  rw [chunkList_cons B l hl hB]
  simp

theorem chunkList_dropLast {α : Type} : ∀ (B : Nat) (l : List α), 0 < B →
    ∀ b ∈ (chunkList B l).dropLast, b.length = B := by
  intro B l
  induction B, l using chunkList.induct with
  | case1 B => intro _; simp [chunkList_nil]
  | case2 x xs => intro h; omega
  | case3 B x xs ih =>
    intro _
    rw [chunkList_cons _ _ (by simp) (Nat.succ_pos B)]
    by_cases h : (x :: xs).drop (B + 1) = []
    · rw [h, chunkList_nil]
      simp
    · rw [List.dropLast_cons_of_ne_nil (chunkList_ne_nil _ _ h (Nat.succ_pos B))]
      intro b hb
      rcases List.mem_cons.mp hb with hb | hb
      · subst hb
        have hlen : B + 1 ≤ (x :: xs).length := by
          by_contra hc
          exact h (List.drop_eq_nil_of_le (by omega))
        simpa [List.length_take] using Nat.min_eq_left hlen
      · exact ih (Nat.succ_pos B) b hb

theorem chunkList_getLast {α : Type} : ∀ (B : Nat) (l : List α), 0 < B → l ≠ [] →
    ((chunkList B l).getLastD []).length =
      if l.length % B = 0 then B else l.length % B := by
  intro B l
  induction B, l using chunkList.induct with
  | case1 B => intro _ h; exact absurd rfl h
  | case2 x xs => intro h; omega
  | case3 B x xs ih =>
    intro _ _
    rw [chunkList_cons _ _ (by simp) (Nat.succ_pos B)]
    by_cases h : (x :: xs).drop (B + 1) = []
    · rw [h, chunkList_nil]
      have hlen : (x :: xs).length ≤ B + 1 := by
        by_contra hc
        have : (x :: xs).drop (B + 1) ≠ [] := by
          apply List.ne_nil_of_length_pos
          simp only [List.length_drop]
          omega
        exact this h
      simp only [List.getLastD_cons, List.getLastD_nil, List.length_take]
      rw [Nat.min_eq_right hlen]
      by_cases hmod : (x :: xs).length % (B + 1) = 0
      · rw [if_pos hmod]
        have hpos : 0 < (x :: xs).length := by simp
        rcases Nat.lt_or_ge ((x :: xs).length) (B + 1) with hlt | hge
        · rw [Nat.mod_eq_of_lt hlt] at hmod
          omega
        · omega
      · rw [if_neg hmod]
        have hlt : (x :: xs).length < B + 1 := by
          rcases Nat.lt_or_ge ((x :: xs).length) (B + 1) with hlt | hge
          · exact hlt
          · have heq : (x :: xs).length = B + 1 := by omega
            rw [heq, Nat.mod_self] at hmod
            exact absurd rfl hmod
        rw [Nat.mod_eq_of_lt hlt]
    · have hle : B + 1 ≤ (x :: xs).length := by
        by_contra hc
        exact h (List.drop_eq_nil_of_le (by omega))
      have htail := ih (Nat.succ_pos B) h
      have hcons : ∀ (a : List α) (t : List (List α)), t ≠ [] →
          (a :: t).getLastD [] = t.getLastD [] := by
        intro a t ht
        rw [List.getLastD_cons]
        rw [List.getLastD_eq_getLast?, List.getLastD_eq_getLast?]
        cases t with
        | nil => exact absurd rfl ht
        | cons y ys => simp [List.getLast?_cons]
      rw [hcons _ _ (chunkList_ne_nil _ _ h (Nat.succ_pos B)), htail]
      have hmodeq : ((x :: xs).drop (B + 1)).length % (B + 1) = (x :: xs).length % (B + 1) := by
        simp only [List.length_drop]
        conv_rhs => rw [← Nat.sub_add_cancel hle]
        rw [Nat.add_mod_right]
      rw [hmodeq]

/-- C1: for every finite input file sequence of length N and batch size B with
0 < B, yield_file_batches emits exactly ceil(N/B) = (N + B - 1) / B batches;
every batch except possibly the last has exactly B elements, the last batch has
N mod B elements (or B when B divides N), and the concatenation of the batches
is the input sequence, so every file appears exactly once. -/
theorem c1_yield_file_batches_partition {α : Type} (B : Nat) (files : List α) (hB : 0 < B) :
    (yield_file_batches B files).length = (files.length + B - 1) / B ∧
    (∀ b ∈ (yield_file_batches B files).dropLast, b.length = B) ∧
    (files ≠ [] → ((yield_file_batches B files).getLastD []).length =
      if files.length % B = 0 then B else files.length % B) ∧
    (yield_file_batches B files).flatten = files := by
  rw [yield_file_batches_eq_chunkList B hB files]
  exact ⟨chunkList_length B files hB, chunkList_dropLast B files hB,
    fun hne => chunkList_getLast B files hB hne, chunkList_flatten B files hB⟩

/-- Witness for C1: batch size 3 on a 7-element sequence gives ceil(7/3) = 3
batches, the first two of size 3 and the last of size 7 mod 3 = 1, whose
concatenation is the input. -/
theorem c1_yield_file_batches_partition_witness :
    (yield_file_batches 3 ([0, 1, 2, 3, 4, 5, 6] : List Nat)).length =
      (([0, 1, 2, 3, 4, 5, 6] : List Nat).length + 3 - 1) / 3 ∧
    (∀ b ∈ (yield_file_batches 3 ([0, 1, 2, 3, 4, 5, 6] : List Nat)).dropLast, b.length = 3) ∧
    (([0, 1, 2, 3, 4, 5, 6] : List Nat) ≠ [] →
      ((yield_file_batches 3 ([0, 1, 2, 3, 4, 5, 6] : List Nat)).getLastD []).length =
        if ([0, 1, 2, 3, 4, 5, 6] : List Nat).length % 3 = 0 then 3
        else ([0, 1, 2, 3, 4, 5, 6] : List Nat).length % 3) ∧
    (yield_file_batches 3 ([0, 1, 2, 3, 4, 5, 6] : List Nat)).flatten =
      ([0, 1, 2, 3, 4, 5, 6] : List Nat) :=
  c1_yield_file_batches_partition 3 [0, 1, 2, 3, 4, 5, 6] (by decide)

theorem save_results_count (a : List Row) (store : Option (List Row)) :
    storeCount (save_results (some a) store) = storeCount store + a.length := by
  cases store <;> simp [save_results, storeCount]

theorem mergeAll_count : ∀ (arts : List (List Row)) (store : Option (List Row)),
    storeCount (mergeAll arts store) = storeCount store + (arts.map List.length).sum := by
  intro arts
  induction arts with
  | nil => intro store; simp [mergeAll]
  | cons a rest ih =>
    intro store
    have hstep : mergeAll (a :: rest) store = mergeAll rest (save_results (some a) store) := by
      simp [mergeAll]
    rw [hstep, ih, save_results_count]
    simp [Nat.add_assoc]

theorem mergeAll_extends : ∀ (arts : List (List Row)) (s : List Row),
    ∃ t, mergeAll arts (some s) = some (s ++ t) := by
  intro arts
  induction arts with
  | nil => intro s; exact ⟨[], by simp [mergeAll]⟩
  | cons a rest ih =>
    intro s
    have hstep : mergeAll (a :: rest) (some s) = mergeAll rest (some (s ++ a)) := by
      simp [mergeAll, save_results]
    rcases ih (s ++ a) with ⟨t, ht⟩
    exact ⟨a ++ t, by rw [hstep, ht, List.append_assoc]⟩

/-- C2: merging K non-empty batch artifacts one at a time through save_results
(the store is created from the first artifact when absent, concatenated
otherwise) yields a store whose row count is the starting count plus the sum
of the artifacts' row counts; the count is independent of the order in which
the artifacts are merged; and merging only appends, so the existing store
contents survive unchanged as a prefix (merge is additive, never
destructive). -/
theorem c2_save_results_merge (arts : List (List Row)) (store : Option (List Row))
    (_hne : ∀ a ∈ arts, a ≠ []) :
    storeCount (mergeAll arts store) = storeCount store + (arts.map List.length).sum ∧
    (∀ arts2, arts2.Perm arts →
      storeCount (mergeAll arts2 store) = storeCount (mergeAll arts store)) ∧
    (∀ s, store = some s → ∃ t, mergeAll arts store = some (s ++ t)) := by
  refine ⟨mergeAll_count arts store, ?_, ?_⟩
  · intro arts2 hperm
    rw [mergeAll_count, mergeAll_count, (hperm.map List.length).sum_eq]
  · intro s hs
    subst hs
    exact mergeAll_extends arts s

/-- Witness for C2: two non-empty artifacts of sizes one and two merged into
an absent store give a store of three rows; the conclusion is obtained from
the main theorem at this concrete input. -/
theorem c2_save_results_merge_witness :
    storeCount (mergeAll [[(("a".toList, "s".toList) : Row)],
        [(("b".toList, "t".toList) : Row), (("c".toList, "u".toList) : Row)]] none) =
      storeCount none +
        (([[(("a".toList, "s".toList) : Row)],
          [(("b".toList, "t".toList) : Row), (("c".toList, "u".toList) : Row)]]).map
            List.length).sum ∧
    (∀ arts2, arts2.Perm [[(("a".toList, "s".toList) : Row)],
        [(("b".toList, "t".toList) : Row), (("c".toList, "u".toList) : Row)]] →
      storeCount (mergeAll arts2 none) =
        storeCount (mergeAll [[(("a".toList, "s".toList) : Row)],
          [(("b".toList, "t".toList) : Row), (("c".toList, "u".toList) : Row)]] none)) ∧
    (∀ s, (none : Option (List Row)) = some s →
      ∃ t, mergeAll [[(("a".toList, "s".toList) : Row)],
        [(("b".toList, "t".toList) : Row), (("c".toList, "u".toList) : Row)]] none =
          some (s ++ t)) :=
  c2_save_results_merge _ none (by
    intro a ha
    rcases List.mem_cons.mp ha with h | h
    · subst h; simp
    · rcases List.mem_cons.mp h with h2 | h2
      · subst h2; simp
      · simp at h2)

theorem batchFoldAux_cons (f : FileInput) (fs : List FileInput) (acc : List Row) :
    batchFoldAux (f :: fs) acc =
      batchFoldAux fs (match (process_file f).toOption with
        | some t => if t.isEmpty then acc else add_result_to_container t acc
        | none => acc) := by
  cases hpf : process_file f <;>
    simp [batchFoldAux, yield_processing_results, hpf, Except.toOption]

theorem batchFoldAux_eq : ∀ (files : List FileInput) (acc : List Row),
    batchFoldAux files acc = (successTables files).reverse.flatten ++ acc := by
  intro files
  induction files with
  | nil => intro acc; simp [batchFoldAux, yield_processing_results, successTables]
  | cons f fs ih =>
    intro acc
    rw [batchFoldAux_cons]
    cases hpf : process_file f with
    | error e =>
      simp only [hpf, Except.toOption]
      rw [ih]
      simp [successTables, List.filterMap_cons, hpf, Except.toOption]
    | ok t =>
      simp only [hpf, Except.toOption]
      have hsucc : successTables (f :: fs) = t :: successTables fs := by
        simp [successTables, List.filterMap_cons, hpf, Except.toOption]
      rw [hsucc]
      by_cases ht : t.isEmpty
      · have ht2 : t = [] := List.isEmpty_iff.mp ht
        rw [if_pos ht, ih, ht2]
        simp
      · rw [if_neg ht, ih]
        simp [add_result_to_container]

theorem batchContainer_eq (files : List FileInput) :
    batchContainer files = (successTables files).reverse.flatten := by
  rw [batchContainer, batchFoldAux_eq]
  simp

theorem flatten_perm_of_perm {α : Type} {l1 l2 : List (List α)} (h : l1.Perm l2) :
    l1.flatten.Perm l2.flatten := by
  induction h with
  | nil => exact List.Perm.refl _
  | cons x _ ih => simpa using ih.append_left x
  | swap x y l =>
    simp only [List.flatten_cons, ← List.append_assoc]
    exact List.perm_append_comm.append_right _
  | trans _ _ ih1 ih2 => exact ih1.trans ih2

/-- C3: process_files is total (it always returns a pair, never raising past
its boundary), and the pair is determined by the batch table and the
persistence effect: an empty batch table yields (none, none); a non-empty
table that persists yields the artifact and no error; a non-empty table whose
persistence raises yields no artifact and the caught structured error
detail. -/
theorem c3_process_files_result_shape (tmp : TmpDir) (files : List FileInput) :
    (batchContainer files = [] → process_files tmp files = (none, none)) ∧
    (batchContainer files ≠ [] → tmp.writeOk = true →
      process_files tmp files = (some (batchContainer files), none)) ∧
    (batchContainer files ≠ [] → tmp.writeOk = false →
      process_files tmp files = (none, some tmp.errMsg)) := by
  refine ⟨?_, ?_, ?_⟩
  · intro h
    simp [process_files, List.isEmpty_iff, h]
  · intro h hw
    simp [process_files, List.isEmpty_iff, h, hw]
  · intro h hw
    simp [process_files, List.isEmpty_iff, h, hw]

/-- Witness for C3: a batch with one readable file holding a statement has a
non-empty batch table, and with a working temp directory process_files
returns the artifact and no error. -/
theorem c3_process_files_result_shape_witness :
    batchContainer [⟨"g1".toList, Except.ok (strBytes "select a from t;")⟩] ≠ [] ∧
    process_files ⟨true, []⟩ [⟨"g1".toList, Except.ok (strBytes "select a from t;")⟩] =
      (some (batchContainer [⟨"g1".toList, Except.ok (strBytes "select a from t;")⟩]),
        none) :=
  ⟨by decide,
    (c3_process_files_result_shape ⟨true, []⟩
      [⟨"g1".toList, Except.ok (strBytes "select a from t;")⟩]).2.1 (by decide) rfl⟩

/-- C4: failure isolation at file granularity.  First conjunct: for every
batch, the batch table holds exactly the successful files' matches (as a
permutation of their concatenation; a failed read is caught and skipped and
cannot abort the rest of the batch).  Second conjunct: the concrete batch of
one unreadable file and two readable files with one match each yields exactly
those two files' matches and no error. -/
theorem c4_file_failure_isolated :
    (∀ files : List FileInput,
      (batchContainer files).Perm (successTables files).flatten) ∧
    process_files ⟨true, []⟩
        [⟨"bad".toList, Except.error "ioerror".toList⟩,
         ⟨"g1".toList, Except.ok (strBytes "select a from t;")⟩,
         ⟨"g2".toList, Except.ok (strBytes "select b from u;")⟩] =
      (some [("g2".toList, "SELECT B FROM U;".toList),
             ("g1".toList, "SELECT A FROM T;".toList)], none) := by
  constructor
  · intro files
    rw [batchContainer_eq]
    exact flatten_perm_of_perm (List.reverse_perm _)
  · decide

theorem dotStarSemi_shape : ∀ (l : List Char) (m : Nat), dotStarSemi l = some m →
    ∃ pre : List Char, l.take m = pre ++ [semiChar] := by
  intro l
  induction l with
  | nil => intro m h; simp [dotStarSemi] at h
  | cons c rest ih =>
    intro m h
    by_cases hc : c = semiChar
    · rw [dotStarSemi, if_pos hc] at h
      have hm : m = 1 := (Option.some.inj h).symm
      subst hm
      exact ⟨[], by simp [hc]⟩
    · by_cases hn : c = nlChar
      · rw [dotStarSemi, if_neg hc, if_pos hn] at h
        exact absurd h (by simp)
      · rw [dotStarSemi, if_neg hc, if_neg hn] at h
        cases hds : dotStarSemi rest with
        | none => rw [hds] at h; exact absurd h (by simp)
        | some m0 =>
          rw [hds] at h
          have hm : m = m0 + 1 := (Option.some.inj h).symm
          subst hm
          obtain ⟨pre, hp⟩ := ih m0 hds
          exact ⟨c :: pre, by simp [List.take_succ_cons, hp]⟩

theorem dotPlusSemi_shape : ∀ (l : List Char) (m : Nat), dotPlusSemi l = some m →
    ∃ pre : List Char, l.take m = pre ++ [semiChar] := by
  intro l m h
  cases l with
  | nil => simp [dotPlusSemi] at h
  | cons c rest =>
    by_cases hn : c = nlChar
    · rw [dotPlusSemi, if_pos hn] at h
      exact absurd h (by simp)
    · rw [dotPlusSemi, if_neg hn] at h
      cases hds : dotStarSemi rest with
      | none => rw [hds] at h; exact absurd h (by simp)
      | some m0 =>
        rw [hds] at h
        have hm : m = m0 + 1 := (Option.some.inj h).symm
        subst hm
        obtain ⟨pre, hp⟩ := dotStarSemi_shape rest m0 hds
        exact ⟨c :: pre, by simp [List.take_succ_cons, hp]⟩

theorem dotStarFromSemi_shape : ∀ (l : List Char) (m : Nat),
    dotStarFromSemi l = some m → ∃ pre : List Char, l.take m = pre ++ [semiChar] := by
  intro l
  induction l with
  | nil => intro m h; simp [dotStarFromSemi] at h
  | cons c rest ih =>
    intro m h
    rw [dotStarFromSemi] at h
    cases hif : (if fromLit.isPrefixOf (c :: rest) then dotPlusSemi ((c :: rest).drop 4)
        else none) with
    | some m2 =>
      rw [hif] at h
      have hm : m = 4 + m2 := (Option.some.inj h).symm
      subst hm
      have hdp : dotPlusSemi ((c :: rest).drop 4) = some m2 := by
        by_cases hpre : fromLit.isPrefixOf (c :: rest)
        · rwa [if_pos hpre] at hif
        · rw [if_neg hpre] at hif; exact absurd hif (by simp)
      obtain ⟨pre2, hp2⟩ := dotPlusSemi_shape _ m2 hdp
      refine ⟨(c :: rest).take 4 ++ pre2, ?_⟩
      rw [List.take_add, hp2, List.append_assoc]
    | none =>
      rw [hif] at h
      by_cases hn : c = nlChar
      · rw [if_pos hn] at h; exact absurd h (by simp)
      · rw [if_neg hn] at h
        cases hds : dotStarFromSemi rest with
        | none => rw [hds] at h; exact absurd h (by simp)
        | some m0 =>
          rw [hds] at h
          have hm : m = m0 + 1 := (Option.some.inj h).symm
          subst hm
          obtain ⟨pre, hp⟩ := ih m0 hds
          exact ⟨c :: pre, by simp [List.take_succ_cons, hp]⟩

theorem dotPlusFromSemi_shape : ∀ (l : List Char) (m : Nat),
    dotPlusFromSemi l = some m → ∃ pre : List Char, l.take m = pre ++ [semiChar] := by
  intro l m h
  cases l with
  | nil => simp [dotPlusFromSemi] at h
  | cons c rest =>
    by_cases hn : c = nlChar
    · rw [dotPlusFromSemi, if_pos hn] at h
      exact absurd h (by simp)
    · rw [dotPlusFromSemi, if_neg hn] at h
      cases hds : dotStarFromSemi rest with
      | none => rw [hds] at h; exact absurd h (by simp)
      | some m0 =>
        rw [hds] at h
        have hm : m = m0 + 1 := (Option.some.inj h).symm
        subst hm
        obtain ⟨pre, hp⟩ := dotStarFromSemi_shape rest m0 hds
        exact ⟨c :: pre, by simp [List.take_succ_cons, hp]⟩

theorem matchSelect_shape (l : List Char) (n : Nat) (h : matchSelect l = some n) :
    ∃ pre : List Char, l.take n = selLit ++ pre ++ [semiChar] := by
  rw [matchSelect] at h
  by_cases hpre : selLit.isPrefixOf l
  · rw [if_pos hpre] at h
    cases hdp : dotPlusFromSemi (l.drop 7) with
    | none => rw [hdp] at h; exact absurd h (by simp)
    | some k =>
      rw [hdp] at h
      have hn : n = k + 7 := (Option.some.inj h).symm
      subst hn
      obtain ⟨pre2, hp2⟩ := dotPlusFromSemi_shape _ k hdp
      have htake7 : l.take 7 = selLit := by
        have hp : selLit <+: l := List.isPrefixOf_iff_prefix.mp hpre
        have := List.prefix_iff_eq_take.mp hp
        simpa [selLit] using this.symm
      refine ⟨pre2, ?_⟩
      have hadd : k + 7 = 7 + k := Nat.add_comm k 7
      rw [hadd, List.take_add, htake7, hp2, List.append_assoc]
  · rw [if_neg hpre] at h
    exact absurd h (by simp)

theorem finditerAux_shape : ∀ (fuel : Nat) (l : List Char),
    ∀ m ∈ finditerAux fuel l, ∃ l0 n, matchSelect l0 = some n ∧ m = l0.take n := by
  intro fuel
  induction fuel with
  | zero => intro l m h; simp [finditerAux] at h
  | succ fuel ih =>
    intro l m h
    cases l with
    | nil => simp [finditerAux] at h
    | cons c rest =>
      rw [finditerAux] at h
      cases hms : matchSelect (c :: rest) with
      | some n =>
        rw [hms] at h
        rcases List.mem_cons.mp h with h1 | h1
        · exact ⟨c :: rest, n, hms, h1⟩
        · exact ih _ m h1
      | none =>
        rw [hms] at h
        exact ih rest m h

/-- Counterexample to C5 as stated: on the plain-ASCII buffer holding
select a backslash from t; (valid UTF-8, so every byte decode of it agrees),
the code's match text carries the two characters of the repr escape of the
backslash, while the match over the uppercased byte-decoded content carries
the single decoded backslash; the Extractor therefore does not compute its
matches over the byte-decoded content. -/
theorem c5_counterexample :
    extractMatches (strBytes "select a\\ from t;") ≠
      specExtractMatches (strBytes "select a\\ from t;") ∧
    specExtractMatches (strBytes "select a\\ from t;") =
      ["SELECT A\\ FROM T;".toList] ∧
    extractMatches (strBytes "select a\\ from t;") =
      ["SELECT A\\\\ FROM T;".toList] := by decide

/-- C5 amended: the Extractor is total, so no byte buffer (valid UTF-8 or
not) makes it raise; its matches are computed over the uppercased Python
text of the bytes object (the repr, with b prefix, quotes and backslash
escapes) rather than over a byte-decode of the content, undecodable bytes
becoming hexadecimal escape text instead of a crash; every match is a
non-empty span starting with SELECT-space and ending at a semicolon; and a
buffer with no matches, such as the invalid-UTF-8 buffer below, yields the
empty sequence, not an error. -/
theorem c5_extractor_total_over_repr :
    (∀ bs : List Nat, extractMatches bs = pyFinditer (pyUpper (pyReprBytes bs))) ∧
    (∀ (bs : List Nat), ∀ m ∈ extractMatches bs,
      m ≠ [] ∧ selLit.isPrefixOf m ∧ m.getLast? = some semiChar) ∧
    extractMatches [99, 195, 40, 128, 255] = [] := by
  refine ⟨fun bs => rfl, ?_, by decide⟩
  intro bs m hm
  obtain ⟨l0, n, hms, hm0⟩ := finditerAux_shape _ _ m hm
  obtain ⟨pre, hp⟩ := matchSelect_shape l0 n hms
  subst hm0
  rw [hp]
  refine ⟨by simp, ?_, ?_⟩
  · exact List.isPrefixOf_iff_prefix.mpr ⟨pre ++ [semiChar], by simp⟩
  · exact List.getLast?_concat _

/-- Witness for C5 amended: the single match extracted from a concrete buffer
is non-empty, starts with SELECT-space and ends at a semicolon, obtained by
applying the theorem at that buffer and match. -/
theorem c5_extractor_total_over_repr_witness :
    "SELECT A FROM T;".toList ≠ [] ∧
    selLit.isPrefixOf "SELECT A FROM T;".toList ∧
    ("SELECT A FROM T;".toList).getLast? = some semiChar :=
  c5_extractor_total_over_repr.2.1 (strBytes "select a from t;")
    "SELECT A FROM T;".toList (by decide)

/-- C6: on the byte content select a from t; SELECT b FROM u WHERE x; the
Extractor yields exactly two matches, the uppercased full substrings ending
at each of the two semicolons, in that order. -/
theorem c6_extractor_two_matches :
    extractMatches (strBytes "select a from t; SELECT b FROM u WHERE x;") =
      ["SELECT A FROM T;".toList, "SELECT B FROM U WHERE X;".toList] := by decide

/-- Counterexample to C7 as stated: a store of fifteen distinct files, one
match each, where two files share the basename f.  Every file's count is one,
yet the top list holds an entry with count two, because the report ranks
basenames, not files; so the top list does not contain the ten files with
the highest per-file match counts. -/
theorem c7_counterexample :
    (filepathCounts rows15collide).length = 15 ∧
    (∀ p ∈ filepathCounts rows15collide, p.2 = 1) ∧
    ("f".toList, 2) ∈ topList rows15collide := by decide

/-- C7 amended: the report's top list ranks basenames (filenames), not file
paths.  For every store whose filename frequency table has fifteen entries --
in particular a store of fifteen distinct files whose basenames are pairwise
distinct -- the top list has exactly ten entries, is sorted by descending
count, and together with the five left-out entries it is a permutation of
the frequency table, every kept entry's count being at least every left-out
entry's count (ties broken in an arbitrary but deterministic order). -/
theorem c7_top10_by_filename (rows : List Row)
    (h15 : (filenameCounts rows).length = 15) :
    (topList rows).length = 10 ∧
    List.Sorted countGE (topList rows) ∧
    ∃ rest, (topList rows ++ rest).Perm (filenameCounts rows) ∧
      ∀ x ∈ topList rows, ∀ y ∈ rest, y.2 ≤ x.2 := by
  have hsorted : List.Sorted countGE (List.insertionSort countGE (filenameCounts rows)) :=
    List.sorted_insertionSort countGE (filenameCounts rows)
  have hlen : (List.insertionSort countGE (filenameCounts rows)).length = 15 := by
    rw [List.length_insertionSort, h15]
  refine ⟨?_, ?_, ?_⟩
  · rw [topList, List.length_take, hlen]
    rfl
  · exact List.Pairwise.sublist (List.take_sublist 10 _) hsorted
  · refine ⟨(List.insertionSort countGE (filenameCounts rows)).drop 10, ?_, ?_⟩
    · rw [topList, List.take_append_drop]
      exact List.perm_insertionSort countGE (filenameCounts rows)
    · have hpw : List.Pairwise countGE
          ((List.insertionSort countGE (filenameCounts rows)).take 10 ++
            (List.insertionSort countGE (filenameCounts rows)).drop 10) := by
        rw [List.take_append_drop]
        exact hsorted
      exact fun x hx y hy => (List.pairwise_append.mp hpw).2.2 x hx y hy

/-- Witness for C7 amended: a concrete store of fifteen files with distinct
basenames satisfies the hypothesis, and the theorem gives its top-ten
conclusion there. -/
theorem c7_top10_by_filename_witness :
    (topList rows15distinct).length = 10 ∧
    List.Sorted countGE (topList rows15distinct) ∧
    ∃ rest, (topList rows15distinct ++ rest).Perm (filenameCounts rows15distinct) ∧
      ∀ x ∈ topList rows15distinct, ∀ y ∈ rest, y.2 ≤ x.2 :=
  c7_top10_by_filename rows15distinct (by decide)

/-- Counterexample to C8 as stated: the source tests only whether the store
file exists, so a present store with zero rows is reported with the full
summary, not with the no-matches message the claim requires for an empty
store. -/
theorem c8_counterexample :
    storeCount (some ([] : List Row)) = 0 ∧
    provide_output (some ([] : List Row)) ≠ ReportOutput.noMatches := by decide

/-- C8 amended: provide_output prints the no-matches message exactly when the
store file is absent; when the store exists -- even with zero rows -- it
prints the full summary report (total match count, distinct file count, top
list, per-file count table).  The embedding is a pure function of the store,
so neither branch mutates it. -/
theorem c8_provide_output_branches :
    (∀ store : Option (List Row),
      provide_output store = ReportOutput.noMatches ↔ store = none) ∧
    (∀ rows : List Row, provide_output (some rows) =
      ReportOutput.summary rows.length (dedupFirst (rows.map Prod.fst)).length
        (topList rows) (filepathCounts rows)) := by
  constructor
  · intro store
    cases store <;> simp [provide_output]
  · intro rows
    rfl

/-- Witness for C8 amended: an absent store is reported as no matches, by the
theorem's first part at store none. -/
theorem c8_provide_output_branches_witness :
    provide_output none = ReportOutput.noMatches :=
  (c8_provide_output_branches.1 none).mpr rfl

/-- C9: files whose extension is not in the configured filter list never
survive yield_files (first part), and on the concrete directory holding
a.sql, a.txt and a.SQL with filter .sql, only a.sql is enumerated -- the
comparison is plain string equality, so it is case-sensitive and a.SQL is
excluded (second and third parts). -/
theorem c9_extension_filter :
    (∀ (exts : List (List Char)) (entries : List FsEntry) (e : FsEntry),
      e ∈ yield_files (some exts) entries → entrySuffix e ∈ exts) ∧
    yield_files (some [".sql".toList])
        [⟨["a.sql".toList], false⟩, ⟨["a.txt".toList], false⟩,
         ⟨["a.SQL".toList], false⟩] =
      [⟨["a.sql".toList], false⟩] ∧
    ".SQL".toList ≠ ".sql".toList := by
  refine ⟨?_, by decide, by decide⟩
  intro exts entries e he
  have hmem := List.mem_filter.mp he
  have hpred := hmem.2
  simp only [Bool.not_eq_eq_eq_not, Bool.not_true, Bool.or_eq_false_iff] at hpred
  have hcontains := hpred.2
  simp only [Bool.not_eq_false'] at hcontains
  simpa using hcontains

/-- Witness for C9: the surviving entry a.sql has its suffix in the filter
list, by the theorem's first part at the concrete directory. -/
theorem c9_extension_filter_witness :
    entrySuffix ⟨["a.sql".toList], false⟩ ∈ [".sql".toList] :=
  c9_extension_filter.1 [".sql".toList] [⟨["a.sql".toList], false⟩]
    ⟨["a.sql".toList], false⟩ (by decide)

theorem process_files_fst_some (tmp : TmpDir) (files : List FileInput) (t : List Row)
    (h : (process_files tmp files).1 = some t) :
    t = batchContainer files ∧ t ≠ [] := by
  by_cases he : (batchContainer files).isEmpty
  · rw [process_files, if_pos he] at h
    exact absurd h (by simp)
  · rw [process_files, if_neg he] at h
    by_cases hw : tmp.writeOk
    · rw [if_pos hw] at h
      have ht : t = batchContainer files := (Option.some.inj h).symm
      refine ⟨ht, ?_⟩
      rw [ht]
      exact fun hc => he (List.isEmpty_iff.mpr hc)
    · rw [if_neg hw] at h
      exact absurd h (by simp)

/-- C10: an artifact is returned by process_files only for a non-empty batch
table, and every store state reachable through the pipeline operations (reset
at the start of the run, then save_results merges of returned artifacts) is
either absent or non-empty; an existing-but-empty result store is
unreachable. -/
theorem c10_store_never_empty :
    (∀ (tmp : TmpDir) (files : List FileInput) (t : List Row),
      (process_files tmp files).1 = some t → t ≠ []) ∧
    (∀ s, ReachableStore s → ∀ rows, s = some rows → rows ≠ []) := by
  refine ⟨fun tmp files t h => (process_files_fst_some tmp files t h).2, ?_⟩
  intro s hr
  induction hr with
  | init => intro rows h; exact absurd h (by simp)
  | merge s tmp files t _ h ih =>
    intro rows hrow
    have ht : t ≠ [] := (process_files_fst_some tmp files t h).2
    cases s with
    | none =>
      rw [save_results] at hrow
      have : rows = t := (Option.some.inj hrow).symm
      rw [this]
      exact ht
    | some s0 =>
      rw [save_results] at hrow
      have : rows = s0 ++ t := (Option.some.inj hrow).symm
      rw [this]
      simp [ht]

/-- Witness for C10: the store obtained by merging the artifact of one
concrete successful batch into the freshly reset store is non-empty. -/
theorem c10_store_never_empty_witness :
    [(("g1".toList : List Char), "SELECT A FROM T;".toList)] ≠ ([] : List Row) := by
  have h1 : ReachableStore (save_results
      (some [(("g1".toList : List Char), "SELECT A FROM T;".toList)]) none) :=
    ReachableStore.merge none ⟨true, []⟩
      [⟨"g1".toList, Except.ok (strBytes "select a from t;")⟩]
      [(("g1".toList : List Char), "SELECT A FROM T;".toList)]
      ReachableStore.init (by decide)
  exact c10_store_never_empty.2 _ h1 _ rfl

end FindEmbeddedSql
